import Mathlib

/-!
Shallow embedding of the text-layout code of `src/streamlit_app.py`.

Strings are modelled as `List Char`.  Python's `text.split(' ')` is
`splitP (fun c => c == ' ')` (splitting at every single occurrence of the
separator, keeping empty chunks, with `"".split(' ') = ['']`), Python's
`str.strip()` is `pyStrip` (dropping the six ASCII whitespace characters
from both ends), and the pixel measurement done with
`draw_context.textbbox((0,0), test_line, font=font)` is an opaque
function `measure : List Char → Int` of the measured string, the font and
drawing context being fixed.
-/

/-- The six ASCII whitespace characters removed by Python's `str.strip()`
(space, tab, newline, carriage return, vertical tab, form feed). -/
def isPyWs (c : Char) : Bool :=
  c == ' ' || c == '\t' || c == '\n' || c == '\r' ||
    c == Char.ofNat 11 || c == Char.ofNat 12

/-- Python's `s.split(sep)` with an explicit one-character separator
(characterised by `p`): splits at every occurrence of the separator and
keeps empty chunks, so the result always has one more chunk than there are
separator occurrences, and `splitP p [] = [[]]`. -/
def splitP (p : Char → Bool) : List Char → List (List Char)
  | [] => [[]]
  | c :: cs =>
    if p c then [] :: splitP p cs
    else (c :: (splitP p cs).headI) :: (splitP p cs).tail

/-- Python's `s.strip()`: drop whitespace from the left, then from the
right (implemented by reversing). -/
def pyStrip (s : List Char) : List Char :=
  (((s.dropWhile isPyWs).reverse).dropWhile isPyWs).reverse

/-- The loop of `get_lines` (`src/streamlit_app.py` lines 34-48): for each
word, `test_line = (current_line + ' ' + word).strip()` is measured; if its
width is strictly below `max_width` it becomes the current line, otherwise
the non-empty current line is emitted and the raw word starts a new current
line; after the loop a non-empty current line is emitted. -/
def getLinesGo (measure : List Char → Int) (max_width : Int) :
    List (List Char) → List (List Char) → List Char → List (List Char)
  | [], lines, current_line =>
    if current_line.isEmpty then lines else lines ++ [current_line]
  | word :: words, lines, current_line =>
    if measure (pyStrip (current_line ++ ' ' :: word)) < max_width then
      getLinesGo measure max_width words lines (pyStrip (current_line ++ ' ' :: word))
    else if current_line.isEmpty then
      getLinesGo measure max_width words lines word
    else
      getLinesGo measure max_width words (lines ++ [current_line]) word

/-- `get_lines(draw_context, text, font, max_width)` from
`src/streamlit_app.py` lines 31-49, with the drawing context and font
abstracted into `measure`. -/
def get_lines (measure : List Char → Int) (text : List Char) (max_width : Int) :
    List (List Char) :=
  getLinesGo measure max_width (splitP (fun c => c == ' ') text) [] []

/-- The `get_lines` loop instrumented with the number of `measure` calls
(the code calls `draw_context.textbbox` exactly once per loop iteration). -/
def getLinesCountGo (measure : List Char → Int) (max_width : Int) :
    List (List Char) → List (List Char) → List Char → List (List Char) × Nat
  | [], lines, current_line =>
    (if current_line.isEmpty then lines else lines ++ [current_line], 0)
  | word :: words, lines, current_line =>
    let r :=
      if measure (pyStrip (current_line ++ ' ' :: word)) < max_width then
        getLinesCountGo measure max_width words lines (pyStrip (current_line ++ ' ' :: word))
      else if current_line.isEmpty then
        getLinesCountGo measure max_width words lines word
      else
        getLinesCountGo measure max_width words (lines ++ [current_line]) word
    (r.1, r.2 + 1)

/-- `get_lines` together with the number of measurement calls it performs. -/
def get_lines_measured (measure : List Char → Int) (text : List Char)
    (max_width : Int) : List (List Char) × Nat :=
  getLinesCountGo measure max_width (splitP (fun c => c == ' ') text) [] []

/-- The whitespace-run tokens of a string: split on every whitespace
character and drop the empty chunks, which is exactly splitting on
whitespace runs. -/
def wsTokens (s : List Char) : List (List Char) :=
  (splitP isPyWs s).filter (fun w => !w.isEmpty)

/-- The space-run tokens of a string: split on every space (0x20) and drop
empty chunks. -/
def spaceTokens (s : List Char) : List (List Char) :=
  (splitP (fun c => c == ' ') s).filter (fun w => !w.isEmpty)

/-- Join a list of strings with single spaces. -/
def joinSp : List (List Char) → List Char
  | [] => []
  | [l] => l
  | l :: ls => l ++ ' ' :: joinSp ls

/-- Concatenation of the whitespace-run token sequences of a list of
strings. -/
def catTokens : List (List Char) → List (List Char)
  | [] => []
  | l :: ls => wsTokens l ++ catTokens ls

/-- Normalization of a string in which runs of space (0x20) characters are
collapsed to a single space and leading/trailing spaces are removed. -/
def normalizeSpaces (s : List Char) : List Char := joinSp (spaceTokens s)

/-- The greedy line-fill loop exactly as §4.1 of the spec words it: the
candidate is the current line plus a space plus the token, or the token
alone when the current line is empty (no stripping); strict `<` acceptance;
otherwise the non-empty current line is emitted and the token
unconditionally starts a new line; after the loop a non-empty current line
is emitted.  Transcribed from the spec for comparison with `getLinesGo`. -/
def wrapTextSpecGo (measure : List Char → Int) (maxLineWidth : Int) :
    List (List Char) → List (List Char) → List Char → List (List Char)
  | [], lines, currentLine =>
    if currentLine.isEmpty then lines else lines ++ [currentLine]
  | tok :: toks, lines, currentLine =>
    if measure (if currentLine.isEmpty then tok else currentLine ++ ' ' :: tok) < maxLineWidth then
      wrapTextSpecGo measure maxLineWidth toks lines
        (if currentLine.isEmpty then tok else currentLine ++ ' ' :: tok)
    else if currentLine.isEmpty then
      wrapTextSpecGo measure maxLineWidth toks lines tok
    else
      wrapTextSpecGo measure maxLineWidth toks (lines ++ [currentLine]) tok

/-- `wrapText` run on a given token sequence, per §4.1 of the spec. -/
def wrapTextSpec (measure : List Char → Int) (toks : List (List Char))
    (maxLineWidth : Int) : List (List Char) :=
  wrapTextSpecGo measure maxLineWidth toks [] []

/-- The vertical anchor of the first drawn text line computed at
`src/streamlit_app.py` line 284:
`text_y_start_for_lines = text_area_start_y + (max_text_height_per_panel - text_block_height) / 2`
with `text_block_height = len(lines_to_draw) * line_height`; line `j` is
then drawn (with a center anchor `"mm"`) at this value plus
`j * line_height`. -/
def text_y_start_for_lines (text_area_start_y max_text_height_per_panel : ℚ)
    (num_lines : ℕ) (line_height : ℚ) : ℚ :=
  text_area_start_y + (max_text_height_per_panel - num_lines * line_height) / 2

/-- The spec's `centerBlock(lineCount, lineHeight, containerHeight)`
formula, transcribed for comparison with `text_y_start_for_lines`. -/
def centerBlock (lineCount : ℕ) (lineHeight containerHeight : ℚ) : ℚ :=
  (containerHeight - lineCount * lineHeight) / 2 + lineHeight / 2

/-- A simple deterministic measure: ten units per character. -/
def measureLen10 (s : List Char) : Int := 10 * s.length

/-- A (non-monotonic) measure that finds exactly the string `"a b"`
narrow. -/
def measureNarrowAB (s : List Char) : Int :=
  if s = ['a', ' ', 'b'] then 10 else 100

/-- A measure that is monotonic in the spec's sense (appending a token to a
line never decreases the width) yet gives the lone token `"t"` — and any
line beginning with `"t "` — a large width. -/
def measureBigT (s : List Char) : Int :=
  if s.take 2 = ['t', ' '] ∨ s = ['t'] then 100 + s.length else s.length

/-- The spec's §4.1 requirement on `measure`: appending a token to a line
never decreases the measured width. -/
def MonotoneMeasure (measure : List Char → Int) : Prop :=
  ∀ line tok, measure line ≤ measure (line ++ ' ' :: tok)

/-- Two-sided monotonicity: the measured width of a candidate is at least
that of the line and at least that of the appended token. -/
def MonotoneMeasure2 (measure : List Char → Int) : Prop :=
  MonotoneMeasure measure ∧ ∀ line tok, measure tok ≤ measure (line ++ ' ' :: tok)

/-- A string with no whitespace at either end (so `pyStrip` fixes it). -/
def Clean (s : List Char) : Prop :=
  (∀ c ∈ s.head?, isPyWs c = false) ∧ (∀ c ∈ s.getLast?, isPyWs c = false)

/-! ### Basic lemmas about `splitP`, `pyStrip`, `joinSp` and the token maps -/

theorem splitP_ne_nil (p : Char → Bool) (s : List Char) : splitP p s ≠ [] := by
  cases s with
  | nil => simp [splitP]
  | cons c cs => by_cases h : p c <;> simp [splitP, h]

theorem headI_append {l₁ l₂ : List (List Char)} (h : l₁ ≠ []) :
    (l₁ ++ l₂).headI = l₁.headI := by
  cases l₁ with
  | nil => exact absurd rfl h
  | cons a t => rfl

theorem tail_append {l₁ l₂ : List (List Char)} (h : l₁ ≠ []) :
    (l₁ ++ l₂).tail = l₁.tail ++ l₂ := by
  cases l₁ with
  | nil => exact absurd rfl h
  | cons a t => rfl

theorem splitP_sep {p : Char → Bool} {d : Char} (hd : p d = true)
    (a b : List Char) : splitP p (a ++ d :: b) = splitP p a ++ splitP p b := by
  induction a with
  | nil => simp [splitP, hd]
  | cons c a ih =>
    by_cases h : p c
    · simp [splitP, h, ih]
    · simp only [List.cons_append, splitP, h, Bool.false_eq_true, if_false,
        List.append_eq]
      rw [ih, headI_append (splitP_ne_nil p a), tail_append (splitP_ne_nil p a)]

theorem splitP_all_sep {p : Char → Bool} {b : List Char}
    (hb : ∀ c ∈ b, p c = true) :
    splitP p b = List.replicate (b.length + 1) [] := by
  induction b with
  | nil => simp [splitP]
  | cons c b ih =>
    have hc : p c = true := hb c (by simp)
    simp [splitP, hc, ih fun x hx => hb x (by simp [hx]), List.replicate_succ]

theorem splitP_append_all_sep {p : Char → Bool} {b : List Char}
    (hb : ∀ c ∈ b, p c = true) (a : List Char) :
    splitP p (a ++ b) = splitP p a ++ List.replicate b.length [] := by
  induction a with
  | nil =>
    simp only [List.nil_append, splitP_all_sep hb, splitP]
    simp [List.replicate_succ]
  | cons c a ih =>
    by_cases h : p c
    · simp [splitP, h, ih]
    · simp only [List.cons_append, splitP, h, Bool.false_eq_true, if_false,
        List.append_eq]
      rw [ih, headI_append (splitP_ne_nil p a), tail_append (splitP_ne_nil p a)]

theorem splitP_no_sep {p : Char → Bool} {s : List Char}
    (hs : ∀ c ∈ s, p c = false) : splitP p s = [s] := by
  induction s with
  | nil => simp [splitP]
  | cons c s ih =>
    have hc : p c = false := hs c (by simp)
    simp [splitP, hc, ih fun x hx => hs x (by simp [hx])]

theorem joinSp_cons {l : List Char} {ls : List (List Char)} (h : ls ≠ []) :
    joinSp (l :: ls) = l ++ ' ' :: joinSp ls := by
  cases ls with
  | nil => exact absurd rfl h
  | cons a t => rfl

theorem joinSp_splitOnSpace (s : List Char) :
    joinSp (splitP (fun c => c == ' ') s) = s := by
  induction s with
  | nil => simp [splitP, joinSp]
  | cons c cs ih =>
    by_cases h : c = ' '
    · subst h
      simp only [splitP, beq_self_eq_true, if_true]
      rw [joinSp_cons (splitP_ne_nil _ cs)]
      simp [ih]
    · have hb : (c == ' ') = false := by simp [h]
      simp only [splitP, hb, Bool.false_eq_true, if_false]
      rcases hsp : splitP (fun c => c == ' ') cs with _ | ⟨w, ws⟩
      · exact absurd hsp (splitP_ne_nil _ cs)
      · rw [hsp] at ih
        cases ws with
        | nil => simpa [joinSp] using congrArg (c :: ·) ih
        | cons w2 ws2 =>
          rw [joinSp_cons (by simp)] at ih
          simp only [List.headI, List.tail]
          rw [joinSp_cons (by simp)]
          simpa using congrArg (c :: ·) ih

theorem splitP_joinSp {p : Char → Bool} (hsp : p ' ' = true)
    {ts : List (List Char)} (hts : ts ≠ [])
    (h : ∀ w ∈ ts, ∀ c ∈ w, p c = false) : splitP p (joinSp ts) = ts := by
  induction ts with
  | nil => exact absurd rfl hts
  | cons w ws ih =>
    cases ws with
    | nil => simpa [joinSp] using splitP_no_sep (h w (by simp))
    | cons w2 ws2 =>
      rw [joinSp_cons (by simp), splitP_sep hsp,
        splitP_no_sep (h w (by simp)),
        ih (by simp) fun x hx c hc => h x (by simp [hx]) c hc]
      simp

theorem filter_replicate_nil (n : ℕ) :
    (List.replicate n ([] : List Char)).filter (fun w => !w.isEmpty) = [] := by
  induction n with
  | zero => rfl
  | succ n ih => simp [List.replicate_succ, ih]

theorem wsTokens_nil : wsTokens [] = [] := by
  simp [wsTokens, splitP]

theorem wsTokens_sep {d : Char} (hd : isPyWs d = true) (a b : List Char) :
    wsTokens (a ++ d :: b) = wsTokens a ++ wsTokens b := by
  simp [wsTokens, splitP_sep hd, List.filter_append]

theorem wsTokens_all_ws {s : List Char} (hs : ∀ c ∈ s, isPyWs c = true) :
    wsTokens s = [] := by
  simp [wsTokens, splitP_all_sep hs, filter_replicate_nil]

theorem wsTokens_append_ws {b : List Char} (hb : ∀ c ∈ b, isPyWs c = true)
    (a : List Char) : wsTokens (a ++ b) = wsTokens a := by
  simp [wsTokens, splitP_append_all_sep hb, List.filter_append,
    filter_replicate_nil]

theorem wsTokens_cons_ws {c : Char} (hc : isPyWs c = true) (s : List Char) :
    wsTokens (c :: s) = wsTokens s := by
  simp [wsTokens, splitP, hc]

theorem wsTokens_no_ws {s : List Char} (hs : ∀ c ∈ s, isPyWs c = false)
    (hne : s ≠ []) : wsTokens s = [s] := by
  simp [wsTokens, splitP_no_sep hs, hne]

theorem wsTokens_dropWhile (s : List Char) :
    wsTokens (s.dropWhile isPyWs) = wsTokens s := by
  induction s with
  | nil => rfl
  | cons c cs ih =>
    by_cases h : isPyWs c
    · rw [List.dropWhile_cons_of_pos h, ih, wsTokens_cons_ws h]
    · rw [List.dropWhile_cons_of_neg h]

theorem wsTokens_pyStrip (s : List Char) : wsTokens (pyStrip s) = wsTokens s := by
  unfold pyStrip
  set t := s.dropWhile isPyWs with ht
  have h1 : wsTokens t = wsTokens s := wsTokens_dropWhile s
  rw [← h1]
  have h2 : t = (t.reverse.dropWhile isPyWs).reverse ++
      (t.reverse.takeWhile isPyWs).reverse := by
    conv_lhs => rw [← List.reverse_reverse t,
      ← List.takeWhile_append_dropWhile (p := isPyWs) (l := t.reverse)]
    rw [List.reverse_append]
  conv_rhs => rw [h2]
  rw [wsTokens_append_ws]
  intro c hc
  rw [List.mem_reverse] at hc
  exact List.mem_takeWhile_imp hc

theorem catTokens_append (a b : List (List Char)) :
    catTokens (a ++ b) = catTokens a ++ catTokens b := by
  induction a with
  | nil => rfl
  | cons l ls ih => simp [catTokens, ih]

theorem wsTokens_joinSp (ls : List (List Char)) :
    wsTokens (joinSp ls) = catTokens ls := by
  induction ls with
  | nil => simp [joinSp, wsTokens_nil, catTokens]
  | cons l ls ih =>
    cases ls with
    | nil => simp [joinSp, catTokens, wsTokens_nil]
    | cons l2 ls2 =>
      rw [joinSp_cons (by simp), wsTokens_sep (by simp [isPyWs]), ih]
      rfl

theorem catTokens_splitOnSpace (s : List Char) :
    catTokens (splitP (fun c => c == ' ') s) = wsTokens s := by
  rw [← wsTokens_joinSp, joinSp_splitOnSpace]

theorem dropWhile_eq_self_of_head {p : Char → Bool} {l : List Char}
    (h : ∀ c ∈ l.head?, p c = false) : l.dropWhile p = l := by
  cases l with
  | nil => rfl
  | cons c cs =>
    have : p c = false := h c rfl
    simp [List.dropWhile_cons, this]

theorem head?_dropWhile_false {p : Char → Bool} (l : List Char) :
    ∀ c ∈ (l.dropWhile p).head?, p c = false := by
  induction l with
  | nil => intro c hc; simp at hc
  | cons a l ih =>
    by_cases h : p a
    · rw [List.dropWhile_cons_of_pos h]; exact ih
    · rw [List.dropWhile_cons_of_neg h]
      intro c hc
      simp only [List.head?_cons, Option.mem_def, Option.some.injEq] at hc
      subst hc
      simpa using h

theorem getLast?_append_of_ne_nil {l₁ l₂ : List Char} (h : l₂ ≠ []) :
    (l₁ ++ l₂).getLast? = l₂.getLast? := by
  rw [← List.head?_reverse, ← List.head?_reverse, List.reverse_append]
  cases hr : l₂.reverse with
  | nil => exact absurd (by simpa using hr) h
  | cons a t => simp

theorem head?_append_of_ne_nil {l₁ l₂ : List Char} (h : l₁ ≠ []) :
    (l₁ ++ l₂).head? = l₁.head? := by
  cases l₁ with
  | nil => exact absurd rfl h
  | cons a t => rfl

theorem clean_nil : Clean [] := by
  constructor <;> intro c hc <;> simp at hc

theorem clean_of_no_ws {s : List Char} (hs : ∀ c ∈ s, isPyWs c = false) :
    Clean s := by
  constructor
  · intro c hc
    exact hs c (List.mem_of_mem_head? hc)
  · intro c hc
    cases s with
    | nil => simp at hc
    | cons a t =>
      exact hs c (List.mem_of_mem_getLast? hc)

theorem pyStrip_eq_self_of_clean {s : List Char} (h : Clean s) :
    pyStrip s = s := by
  obtain ⟨h1, h2⟩ := h
  unfold pyStrip
  rw [dropWhile_eq_self_of_head h1, dropWhile_eq_self_of_head (by
    intro c hc
    rw [List.head?_reverse] at hc
    exact h2 c hc)]
  simp

theorem clean_pyStrip (s : List Char) : Clean (pyStrip s) := by
  unfold pyStrip
  set t := s.dropWhile isPyWs with ht
  set u := t.reverse.dropWhile isPyWs with hu
  constructor
  · intro c hc
    rw [List.head?_reverse] at hc
    rcases List.eq_nil_or_concat u with h | ⟨v, a, hv⟩
    · simp [h] at hc
    · have hsuf : u <:+ t.reverse := List.dropWhile_suffix isPyWs
      obtain ⟨w, hw⟩ := hsuf
      have : t.reverse.getLast? = u.getLast? := by
        rw [← hw]
        exact getLast?_append_of_ne_nil (by simp [hv])
      rw [← this] at hc
      rw [List.getLast?_reverse] at hc
      have := head?_dropWhile_false (p := isPyWs) s
      exact this c hc
  · intro c hc
    rw [List.getLast?_reverse] at hc
    exact head?_dropWhile_false _ c hc

theorem pyStrip_nil : pyStrip [] = [] := rfl

theorem pyStrip_all_ws {s : List Char} (hs : ∀ c ∈ s, isPyWs c = true) :
    pyStrip s = [] := by
  unfold pyStrip
  rw [List.dropWhile_eq_nil_iff.mpr (by
    intro x hx
    exact hs x ((List.dropWhile_suffix isPyWs).subset (List.mem_reverse.mp hx)))]
  rfl

theorem pyStrip_cons_space {w : List Char} (hw : ∀ c ∈ w, isPyWs c = false) :
    pyStrip (' ' :: w) = w := by
  have hs : isPyWs ' ' = true := by simp [isPyWs]
  unfold pyStrip
  rw [List.dropWhile_cons_of_pos hs,
    dropWhile_eq_self_of_head (fun c hc => hw c (List.mem_of_mem_head? hc)),
    dropWhile_eq_self_of_head (by
      intro c hc
      rw [List.head?_reverse] at hc
      exact hw c (List.mem_of_mem_getLast? hc))]
  simp

theorem pyStrip_append_word {cur w : List Char} (hcur : Clean cur)
    (hc : cur ≠ []) (hw : ∀ c ∈ w, isPyWs c = false) (hwne : w ≠ []) :
    pyStrip (cur ++ ' ' :: w) = cur ++ ' ' :: w := by
  apply pyStrip_eq_self_of_clean
  constructor
  · intro c hcm
    rw [head?_append_of_ne_nil hc] at hcm
    exact hcur.1 c hcm
  · intro c hcm
    rw [getLast?_append_of_ne_nil (by simp)] at hcm
    have : (' ' :: w).getLast? = w.getLast? := by
      have : ' ' :: w = [' '] ++ w := rfl
      rw [this, getLast?_append_of_ne_nil hwne]
    rw [this] at hcm
    exact hw c (List.mem_of_mem_getLast? hcm)

theorem pyStrip_append_space {cur : List Char} (hcur : Clean cur)
    (hc : cur ≠ []) : pyStrip (cur ++ [' ']) = cur := by
  unfold pyStrip
  rw [show List.dropWhile isPyWs (cur ++ [' ']) = cur ++ [' '] from
    dropWhile_eq_self_of_head (by
      intro c hcm
      rw [head?_append_of_ne_nil hc] at hcm
      exact hcur.1 c hcm)]
  rw [List.reverse_append]
  simp only [List.reverse_cons, List.reverse_nil, List.nil_append,
    List.singleton_append]
  rw [List.dropWhile_cons_of_pos (by simp [isPyWs]),
    dropWhile_eq_self_of_head (by
      intro c hcm
      rw [List.head?_reverse] at hcm
      exact hcur.2 c hcm)]
  simp

/-! ### Characters of split chunks -/

theorem splitP_mem_chars {p : Char → Bool} :
    ∀ {s : List Char}, ∀ w ∈ splitP p s, ∀ c ∈ w, c ∈ s ∧ p c = false := by
  intro s
  induction s with
  | nil =>
    intro w hw c hc
    simp only [splitP, List.mem_singleton] at hw
    subst hw
    simp at hc
  | cons a s ih =>
    intro w hw c hc
    rcases hsp : splitP p s with _ | ⟨w0, ws0⟩
    · exact absurd hsp (splitP_ne_nil p s)
    by_cases h : p a
    · simp only [splitP, h, if_true, List.mem_cons] at hw
      rcases hw with hw | hw
      · subst hw; simp at hc
      · obtain ⟨h1, h2⟩ := ih w hw c hc
        exact ⟨by simp [h1], h2⟩
    · simp only [splitP, h, Bool.false_eq_true, if_false, hsp, List.headI,
        List.tail_cons, List.mem_cons] at hw
      rcases hw with hw | hw
      · subst hw
        rcases List.mem_cons.mp hc with hceq | hc
        · subst hceq
          exact ⟨by simp, by simpa using h⟩
        · obtain ⟨h1, h2⟩ := ih w0 (by rw [hsp]; simp) c hc
          exact ⟨by simp [h1], h2⟩
      · obtain ⟨h1, h2⟩ := ih w (by rw [hsp]; simp [hw]) c hc
        exact ⟨by simp [h1], h2⟩

/-! ### The master token-conservation invariant of the `get_lines` loop -/

theorem getLinesGo_catTokens (measure : List Char → Int) (max_width : Int) :
    ∀ (words : List (List Char)) (lines : List (List Char)) (cur : List Char),
      catTokens (getLinesGo measure max_width words lines cur) =
        catTokens lines ++ wsTokens cur ++ catTokens words := by
  intro words
  induction words with
  | nil =>
    intro lines cur
    by_cases h : cur.isEmpty
    · have : cur = [] := by simpa using h
      subst this
      simp [getLinesGo, catTokens, wsTokens_nil]
    · rw [getLinesGo, if_neg h, catTokens_append]
      simp [catTokens]
  | cons w ws ih =>
    intro lines cur
    rw [getLinesGo]
    by_cases h : measure (pyStrip (cur ++ ' ' :: w)) < max_width
    · rw [if_pos h, ih, wsTokens_pyStrip, wsTokens_sep (by simp [isPyWs])]
      simp [catTokens]
    · rw [if_neg h]
      by_cases hc : cur.isEmpty
      · have hnil : cur = [] := by simpa using hc
        rw [if_pos hc, ih]
        simp [hnil, catTokens, wsTokens_nil]
      · rw [if_neg hc, ih, catTokens_append]
        simp [catTokens]

theorem get_lines_wsTokens (measure : List Char → Int) (text : List Char)
    (max_width : Int) :
    wsTokens (joinSp (get_lines measure text max_width)) = wsTokens text := by
  rw [wsTokens_joinSp, get_lines, getLinesGo_catTokens, catTokens_splitOnSpace]
  simp [catTokens, wsTokens_nil]

/-! ### Width invariant of emitted lines -/

theorem spaceTokens_no_space {s : List Char}
    (hs : ∀ c ∈ s, (c == ' ') = false) (hne : s ≠ []) :
    spaceTokens s = [s] := by
  simp [spaceTokens, splitP_no_sep hs, hne]

theorem getLinesGo_width (measure : List Char → Int) (max_width : Int) :
    ∀ (words lines : List (List Char)) (cur : List Char),
      (∀ w ∈ words, ∀ c ∈ w, (c == ' ') = false) →
      (∀ l ∈ lines, measure l < max_width ∨ spaceTokens l = [l]) →
      (cur = [] ∨ measure cur < max_width ∨ ∀ c ∈ cur, (c == ' ') = false) →
      ∀ l ∈ getLinesGo measure max_width words lines cur,
        measure l < max_width ∨ spaceTokens l = [l] := by
  intro words
  induction words with
  | nil =>
    intro lines cur hw hlines hcur l hl
    rw [getLinesGo] at hl
    by_cases hc : cur.isEmpty
    · rw [if_pos hc] at hl
      exact hlines l hl
    · rw [if_neg hc] at hl
      rcases List.mem_append.mp hl with h | h
      · exact hlines l h
      · have : l = cur := by simpa using h
        subst this
        rcases hcur with h1 | h1 | h1
        · exact absurd h1 (by simpa using hc)
        · exact Or.inl h1
        · exact Or.inr (spaceTokens_no_space h1 (by simpa using hc))
  | cons w ws ih =>
    intro lines cur hw hlines hcur l hl
    rw [getLinesGo] at hl
    have hwtail : ∀ x ∈ ws, ∀ c ∈ x, (c == ' ') = false :=
      fun x hx => hw x (by simp [hx])
    by_cases h : measure (pyStrip (cur ++ ' ' :: w)) < max_width
    · rw [if_pos h] at hl
      exact ih lines _ hwtail hlines (Or.inr (Or.inl h)) l hl
    · rw [if_neg h] at hl
      by_cases hc : cur.isEmpty
      · rw [if_pos hc] at hl
        exact ih lines w hwtail hlines (Or.inr (Or.inr (hw w (by simp)))) l hl
      · rw [if_neg hc] at hl
        refine ih (lines ++ [cur]) w hwtail ?_ (Or.inr (Or.inr (hw w (by simp)))) l hl
        intro x hx
        rcases List.mem_append.mp hx with h1 | h1
        · exact hlines x h1
        · have : x = cur := by simpa using h1
          subst this
          rcases hcur with h2 | h2 | h2
          · exact absurd h2 (by simpa using hc)
          · exact Or.inl h2
          · exact Or.inr (spaceTokens_no_space h2 (by simpa using hc))

/-! ### Lines already emitted stay in the result -/

theorem getLinesGo_mem_lines (measure : List Char → Int) (max_width : Int) :
    ∀ (words lines : List (List Char)) (cur l : List Char), l ∈ lines →
      l ∈ getLinesGo measure max_width words lines cur := by
  intro words
  induction words with
  | nil =>
    intro lines cur l hl
    rw [getLinesGo]
    by_cases hc : cur.isEmpty
    · rw [if_pos hc]; exact hl
    · rw [if_neg hc]; exact List.mem_append_left _ hl
  | cons w ws ih =>
    intro lines cur l hl
    rw [getLinesGo]
    by_cases h : measure (pyStrip (cur ++ ' ' :: w)) < max_width
    · rw [if_pos h]; exact ih lines _ l hl
    · rw [if_neg h]
      by_cases hc : cur.isEmpty
      · rw [if_pos hc]; exact ih lines w l hl
      · rw [if_neg hc]; exact ih _ w l (List.mem_append_left _ hl)

/-- A clean non-empty line extended with a space and a non-empty
whitespace-free word is still clean. -/
theorem clean_append_word {cur w : List Char} (hcur : Clean cur)
    (hc : cur ≠ []) (hw : ∀ c ∈ w, isPyWs c = false) (hwne : w ≠ []) :
    Clean (cur ++ ' ' :: w) := by
  constructor
  · intro c hcm
    rw [head?_append_of_ne_nil hc] at hcm
    exact hcur.1 c hcm
  · intro c hcm
    rw [getLast?_append_of_ne_nil (by simp)] at hcm
    have heq : (' ' :: w).getLast? = w.getLast? := by
      have h0 : ' ' :: w = [' '] ++ w := rfl
      rw [h0, getLast?_append_of_ne_nil hwne]
    rw [heq] at hcm
    exact hw c (List.mem_of_mem_getLast? hcm)

/-! ### A token too wide for the budget always ends up alone on a line -/

theorem getLinesGo_overflow (measure : List Char → Int) (max_width : Int)
    (hm : MonotoneMeasure2 measure) (w : List Char) (hwne : w ≠ [])
    (hbig : max_width < measure w) :
    ∀ (words lines : List (List Char)) (cur : List Char),
      (∀ x ∈ words, ∀ c ∈ x, isPyWs c = false) → Clean cur → w ∈ words →
      w ∈ getLinesGo measure max_width words lines cur := by
  intro words
  induction words with
  | nil => intro lines cur _ _ hmem; simp at hmem
  | cons w0 ws ih =>
    intro lines cur hws hclean hmem
    have hw0 : ∀ c ∈ w0, isPyWs c = false := hws w0 (by simp)
    have hwstail : ∀ x ∈ ws, ∀ c ∈ x, isPyWs c = false :=
      fun x hx => hws x (by simp [hx])
    by_cases hw0w : w0 = w
    · subst hw0w
      -- the overflowing token's own step: it is rejected and becomes the
      -- current line, on its own
      have hstep : ∃ lines2, getLinesGo measure max_width (w0 :: ws) lines cur =
          getLinesGo measure max_width ws lines2 w0 := by
        rw [getLinesGo]
        by_cases hc : cur.isEmpty
        · have hcn : cur = [] := by simpa using hc
          subst hcn
          rw [show pyStrip ([] ++ ' ' :: w0) = w0 by
            simpa using pyStrip_cons_space hw0]
          refine ⟨lines, ?_⟩
          rw [if_neg (by omega)]
          simp
        · have hcn : cur ≠ [] := by simpa using hc
          rw [pyStrip_append_word hclean hcn hw0 hwne]
          have : ¬ measure (cur ++ ' ' :: w0) < max_width := by
            have := hm.2 cur w0
            omega
          rw [if_neg this, if_neg hc]
          exact ⟨lines ++ [cur], rfl⟩
      obtain ⟨lines2, hl2⟩ := hstep
      rw [hl2]
      -- now the current line is exactly the overflowing token; it is
      -- emitted at the next step or at the end of the loop
      cases ws with
      | nil =>
        rw [getLinesGo, if_neg (by simpa using hwne)]
        exact List.mem_append_right _ (by simp)
      | cons z zs =>
        have hclw0 : Clean w0 := clean_of_no_ws hw0
        have hz : ∀ c ∈ z, isPyWs c = false := hwstail z (by simp)
        rw [getLinesGo]
        by_cases hzne : z = []
        · subst hzne
          rw [show pyStrip (w0 ++ ' ' :: []) = w0 from
            pyStrip_append_space hclw0 hwne]
          rw [if_neg (by omega), if_neg (by simpa using hwne)]
          exact getLinesGo_mem_lines measure max_width zs _ _ w0
            (List.mem_append_right _ (by simp))
        · rw [pyStrip_append_word hclw0 hwne hz hzne]
          have : ¬ measure (w0 ++ ' ' :: z) < max_width := by
            have := hm.1 w0 z
            omega
          rw [if_neg this, if_neg (by simpa using hwne)]
          exact getLinesGo_mem_lines measure max_width zs _ _ w0
            (List.mem_append_right _ (by simp))
    · have hmem2 : w ∈ ws := by
        rcases List.mem_cons.mp hmem with h | h
        · exact absurd h.symm hw0w
        · exact h
      rw [getLinesGo]
      by_cases h : measure (pyStrip (cur ++ ' ' :: w0)) < max_width
      · rw [if_pos h]
        exact ih lines _ hwstail (clean_pyStrip _) hmem2
      · rw [if_neg h]
        by_cases hc : cur.isEmpty
        · rw [if_pos hc]
          exact ih lines w0 hwstail (clean_of_no_ws hw0) hmem2
        · rw [if_neg hc]
          exact ih _ w0 hwstail (clean_of_no_ws hw0) hmem2

/-! ### On single-space-normalized token lists the loop agrees with §4.1 -/

theorem getLinesGo_eq_spec (measure : List Char → Int) (max_width : Int) :
    ∀ (toks : List (List Char)),
      (∀ w ∈ toks, w ≠ [] ∧ ∀ c ∈ w, isPyWs c = false) →
      ∀ (lines : List (List Char)) (cur : List Char), Clean cur →
      getLinesGo measure max_width toks lines cur =
        wrapTextSpecGo measure max_width toks lines cur := by
  intro toks
  induction toks with
  | nil => intro _ lines cur _; rfl
  | cons tok toks ih =>
    intro htoks lines cur hclean
    obtain ⟨htne, htws⟩ := htoks tok (by simp)
    have htail : ∀ w ∈ toks, w ≠ [] ∧ ∀ c ∈ w, isPyWs c = false :=
      fun w hw => htoks w (by simp [hw])
    have hcand : pyStrip (cur ++ ' ' :: tok) =
        if cur.isEmpty then tok else cur ++ ' ' :: tok := by
      by_cases hc : cur.isEmpty
      · have : cur = [] := by simpa using hc
        subst this
        simpa [hc] using pyStrip_cons_space htws
      · have hcn : cur ≠ [] := by simpa using hc
        rw [if_neg hc]
        exact pyStrip_append_word hclean hcn htws htne
    rw [getLinesGo, wrapTextSpecGo, hcand]
    by_cases h : measure (if cur.isEmpty then tok else cur ++ ' ' :: tok) < max_width
    · rw [if_pos h, if_pos h]
      refine ih htail lines _ ?_
      by_cases hc : cur.isEmpty
      · rw [if_pos hc]; exact clean_of_no_ws htws
      · rw [if_neg hc]
        exact clean_append_word hclean (by simpa using hc) htws htne
    · rw [if_neg h, if_neg h]
      by_cases hc : cur.isEmpty
      · rw [if_pos hc, if_pos hc]
        exact ih htail lines tok (clean_of_no_ws htws)
      · rw [if_neg hc, if_neg hc]
        exact ih htail _ tok (clean_of_no_ws htws)

/-! ### Redundant spaces: the loop ignores empty words under a monotone measure -/

theorem getLinesGo_emit_eq (measure : List Char → Int) (max_width : Int)
    (hm : MonotoneMeasure measure) {cur : List Char} (hclean : Clean cur)
    (hne : cur ≠ []) (hge : max_width ≤ measure cur) :
    ∀ (words lines : List (List Char)),
      (∀ x ∈ words, ∀ c ∈ x, isPyWs c = false) →
      getLinesGo measure max_width words (lines ++ [cur]) [] =
        getLinesGo measure max_width words lines cur := by
  intro words lines hws
  cases words with
  | nil =>
    rw [getLinesGo, getLinesGo]
    simp [List.isEmpty_eq_true, hne]
  | cons z zs =>
    have hz : ∀ c ∈ z, isPyWs c = false := hws z (by simp)
    have hlhs : getLinesGo measure max_width (z :: zs) (lines ++ [cur]) [] =
        getLinesGo measure max_width zs (lines ++ [cur]) z := by
      rw [getLinesGo,
        show pyStrip ([] ++ ' ' :: z) = z by simpa using pyStrip_cons_space hz]
      by_cases h : measure z < max_width
      · rw [if_pos h]
      · rw [if_neg h]; simp
    rw [hlhs, getLinesGo]
    by_cases hzne : z = []
    · subst hzne
      rw [show pyStrip (cur ++ ' ' :: []) = cur from
        pyStrip_append_space hclean hne]
      rw [if_neg (by omega), if_neg (by simpa using hne)]
    · rw [pyStrip_append_word hclean hne hz hzne]
      have hnlt : ¬ measure (cur ++ ' ' :: z) < max_width := by
        have := hm cur z
        omega
      rw [if_neg hnlt, if_neg (by simpa using hne)]

theorem getLinesGo_filter_empty (measure : List Char → Int) (max_width : Int)
    (hm : MonotoneMeasure measure) :
    ∀ (words : List (List Char)),
      (∀ x ∈ words, ∀ c ∈ x, isPyWs c = false) →
      ∀ (lines : List (List Char)) (cur : List Char), Clean cur →
      getLinesGo measure max_width words lines cur =
        getLinesGo measure max_width (words.filter (fun w => !w.isEmpty))
          lines cur := by
  intro words
  induction words with
  | nil => intro _ lines cur _; rfl
  | cons w ws ih =>
    intro hws lines cur hclean
    have hwc : ∀ c ∈ w, isPyWs c = false := hws w (by simp)
    have hwstail : ∀ x ∈ ws, ∀ c ∈ x, isPyWs c = false :=
      fun x hx => hws x (by simp [hx])
    by_cases hwne : w = []
    · subst hwne
      have hfil : (([] : List Char) :: ws).filter (fun w => !w.isEmpty) =
          ws.filter (fun w => !w.isEmpty) := by simp
      rw [hfil, getLinesGo]
      by_cases hc : cur.isEmpty
      · have hcn : cur = [] := by simpa using hc
        subst hcn
        rw [show pyStrip ([] ++ ' ' :: []) = [] from pyStrip_all_ws (by
          intro c hc2
          simp only [List.nil_append, List.mem_singleton] at hc2
          simp [hc2, isPyWs])]
        by_cases h : measure [] < max_width
        · rw [if_pos h]
          exact ih hwstail lines [] clean_nil
        · rw [if_neg h]
          simp only [List.isEmpty_nil, if_true]
          exact ih hwstail lines [] clean_nil
      · have hcn : cur ≠ [] := by simpa using hc
        rw [show pyStrip (cur ++ ' ' :: []) = cur from
          pyStrip_append_space hclean hcn]
        by_cases h : measure cur < max_width
        · rw [if_pos h]
          exact ih hwstail lines cur hclean
        · rw [if_neg h, if_neg hc,
            getLinesGo_emit_eq measure max_width hm hclean hcn (by omega) ws
              lines hwstail]
          exact ih hwstail lines cur hclean
    · have hfil : (w :: ws).filter (fun w => !w.isEmpty) =
          w :: ws.filter (fun w => !w.isEmpty) := by simp [hwne]
      rw [hfil, getLinesGo, getLinesGo]
      by_cases h : measure (pyStrip (cur ++ ' ' :: w)) < max_width
      · rw [if_pos h, if_pos h]
        exact ih hwstail lines _ (clean_pyStrip _)
      · rw [if_neg h, if_neg h]
        by_cases hc : cur.isEmpty
        · rw [if_pos hc, if_pos hc]
          exact ih hwstail lines w (clean_of_no_ws hwc)
        · rw [if_neg hc, if_neg hc]
          exact ih hwstail _ w (clean_of_no_ws hwc)

/-! ### Whitespace-only input -/

theorem getLinesGo_all_ws (measure : List Char → Int) (max_width : Int)
    (hlt : measure [] < max_width) :
    ∀ (words : List (List Char)),
      (∀ x ∈ words, ∀ c ∈ x, isPyWs c = true) →
      ∀ (lines : List (List Char)),
        getLinesGo measure max_width words lines [] = lines := by
  intro words
  induction words with
  | nil => intro _ lines; simp [getLinesGo]
  | cons w ws ih =>
    intro hws lines
    rw [getLinesGo]
    rw [show pyStrip ([] ++ ' ' :: w) = [] from pyStrip_all_ws (by
      intro c hc
      simp only [List.nil_append, List.mem_cons] at hc
      rcases hc with hc | hc
      · simp [hc, isPyWs]
      · exact hws w (by simp) c hc)]
    rw [if_pos hlt]
    exact ih (fun x hx => hws x (by simp [hx])) lines

/-! ### The instrumented loop -/

theorem getLinesCountGo_fst (measure : List Char → Int) (max_width : Int) :
    ∀ (words lines : List (List Char)) (cur : List Char),
      (getLinesCountGo measure max_width words lines cur).1 =
        getLinesGo measure max_width words lines cur := by
  intro words
  induction words with
  | nil => intro lines cur; rfl
  | cons w ws ih =>
    intro lines cur
    rw [getLinesCountGo, getLinesGo]
    by_cases h : measure (pyStrip (cur ++ ' ' :: w)) < max_width
    · simp [h, ih]
    · by_cases hc : cur.isEmpty <;> simp [h, hc, ih]

theorem getLinesCountGo_snd (measure : List Char → Int) (max_width : Int) :
    ∀ (words lines : List (List Char)) (cur : List Char),
      (getLinesCountGo measure max_width words lines cur).2 = words.length := by
  intro words
  induction words with
  | nil => intro lines cur; rfl
  | cons w ws ih =>
    intro lines cur
    rw [getLinesCountGo]
    by_cases h : measure (pyStrip (cur ++ ' ' :: w)) < max_width
    · simp [h, ih]
    · by_cases hc : cur.isEmpty <;> simp [h, hc, ih]

theorem splitP_length_le (p : Char → Bool) :
    ∀ s : List Char, (splitP p s).length ≤ s.length + 1 := by
  intro s
  induction s with
  | nil => simp [splitP]
  | cons c cs ih =>
    by_cases h : p c
    · simp only [splitP, h, if_true, List.length_cons]
      omega
    · simp only [splitP, h, Bool.false_eq_true, if_false, List.length_cons]
      rcases hsp : splitP p cs with _ | ⟨w, ws⟩
      · exact absurd hsp (splitP_ne_nil p cs)
      · rw [hsp] at ih
        simp only [hsp, List.headI, List.tail_cons, List.length_cons]
        simp at ih
        omega

/-! ### Emitted lines are non-empty; with space-only whitespace they are
also stripped -/

theorem getLinesGo_clean (measure : List Char → Int) (max_width : Int) :
    ∀ (words lines : List (List Char)) (cur : List Char),
      (∀ x ∈ words, ∀ c ∈ x, isPyWs c = false) →
      (∀ l ∈ lines, l ≠ [] ∧ pyStrip l = l) → Clean cur →
      ∀ l ∈ getLinesGo measure max_width words lines cur,
        l ≠ [] ∧ pyStrip l = l := by
  intro words
  induction words with
  | nil =>
    intro lines cur _ hlines hclean l hl
    rw [getLinesGo] at hl
    by_cases hc : cur.isEmpty
    · rw [if_pos hc] at hl
      exact hlines l hl
    · rw [if_neg hc] at hl
      rcases List.mem_append.mp hl with h | h
      · exact hlines l h
      · have : l = cur := by simpa using h
        subst this
        exact ⟨by simpa using hc, pyStrip_eq_self_of_clean hclean⟩
  | cons w ws ih =>
    intro lines cur hws hlines hclean l hl
    have hwc : ∀ c ∈ w, isPyWs c = false := hws w (by simp)
    have hwstail : ∀ x ∈ ws, ∀ c ∈ x, isPyWs c = false :=
      fun x hx => hws x (by simp [hx])
    rw [getLinesGo] at hl
    by_cases h : measure (pyStrip (cur ++ ' ' :: w)) < max_width
    · rw [if_pos h] at hl
      exact ih lines _ hwstail hlines (clean_pyStrip _) l hl
    · rw [if_neg h] at hl
      by_cases hc : cur.isEmpty
      · rw [if_pos hc] at hl
        exact ih lines w hwstail hlines (clean_of_no_ws hwc) l hl
      · rw [if_neg hc] at hl
        refine ih _ w hwstail ?_ (clean_of_no_ws hwc) l hl
        intro x hx
        rcases List.mem_append.mp hx with h1 | h1
        · exact hlines x h1
        · have : x = cur := by simpa using h1
          subst this
          exact ⟨by simpa using hc, pyStrip_eq_self_of_clean hclean⟩

/-! ### Words of a space-split of space-only-whitespace text -/

theorem words_no_ws_of_space_only {text : List Char}
    (h : ∀ c ∈ text, isPyWs c = true → c = ' ') :
    ∀ w ∈ splitP (fun c => c == ' ') text, ∀ c ∈ w, isPyWs c = false := by
  intro w hw c hc
  obtain ⟨hmem, hnsp⟩ := splitP_mem_chars w hw c hc
  by_contra hws
  have hws2 : isPyWs c = true := by simpa using hws
  have := h c hmem hws2
  subst this
  simp at hnsp

/-! ### Monotonicity of the concrete measures -/

theorem measureLen10_mono2 : MonotoneMeasure2 measureLen10 := by
  constructor
  · intro line tok
    simp only [measureLen10, List.length_append, List.length_cons]
    omega
  · intro line tok
    simp only [measureLen10, List.length_append, List.length_cons]
    omega

theorem measureBigT_le (s : List Char) : (s.length : Int) ≤ measureBigT s := by
  unfold measureBigT
  split
  · omega
  · omega

theorem measureBigT_mono : MonotoneMeasure measureBigT := by
  intro a b
  by_cases h1 : a = ['t']
  · subst h1
    rw [show measureBigT ['t'] = 101 by rfl]
    have htake : (['t'] ++ ' ' :: b).take 2 = ['t', ' '] := by
      simp [List.take]
    rw [show measureBigT (['t'] ++ ' ' :: b) =
        100 + ((['t'] ++ ' ' :: b).length : Int) from by
      unfold measureBigT
      rw [if_pos (Or.inl htake)]]
    simp
    omega
  · by_cases h2 : a.take 2 = ['t', ' ']
    · have hlen : 2 ≤ a.length := by
        have := congrArg List.length h2
        simp [List.length_take] at this
        omega
      have htake : (a ++ ' ' :: b).take 2 = ['t', ' '] := by
        rw [List.take_append_of_le_length hlen, h2]
      rw [show measureBigT a = 100 + (a.length : Int) from by
        unfold measureBigT
        rw [if_pos (Or.inl h2)]]
      rw [show measureBigT (a ++ ' ' :: b) =
          100 + ((a ++ ' ' :: b).length : Int) from by
        unfold measureBigT
        rw [if_pos (Or.inl htake)]]
      simp only [List.length_append, List.length_cons]
      omega
    · rw [show measureBigT a = (a.length : Int) from by
        unfold measureBigT
        rw [if_neg (by
          intro hor
          rcases hor with h | h
          · exact h2 h
          · exact h1 h)]]
      calc (a.length : Int) ≤ ((a ++ ' ' :: b).length : Int) := by
            simp only [List.length_append, List.length_cons]
            omega
      _ ≤ measureBigT (a ++ ' ' :: b) := measureBigT_le _

/-! ### Further shared corollaries used by the claims -/

theorem catTokens_of_clean_tokens {ts : List (List Char)}
    (hts : ∀ w ∈ ts, w ≠ [] ∧ ∀ c ∈ w, isPyWs c = false) :
    catTokens ts = ts := by
  induction ts with
  | nil => rfl
  | cons w ws ih =>
    obtain ⟨hne, hws⟩ := hts w (by simp)
    rw [catTokens, wsTokens_no_ws hws hne, ih fun x hx => hts x (by simp [hx])]
    rfl

theorem getLinesGo_single_empty_word (measure : List Char → Int)
    (max_width : Int) : getLinesGo measure max_width [[]] [] [] = [] := by
  rw [getLinesGo, show pyStrip ([] ++ ' ' :: []) = [] from
    pyStrip_all_ws (by decide)]
  by_cases h : measure [] < max_width
  · rw [if_pos h, getLinesGo]
    simp
  · rw [if_neg h]
    simp only [List.isEmpty_nil, if_true]
    rw [getLinesGo]
    simp

theorem getLinesGo_empty_words (measure : List Char → Int) (max_width : Int) :
    ∀ (words : List (List Char)), (∀ w ∈ words, w = []) →
      ∀ (lines : List (List Char)),
        getLinesGo measure max_width words lines [] = lines := by
  intro words
  induction words with
  | nil => intro _ lines; simp [getLinesGo]
  | cons w ws ih =>
    intro hws lines
    have hw : w = [] := hws w (by simp)
    subst hw
    rw [getLinesGo, show pyStrip ([] ++ ' ' :: []) = [] from
      pyStrip_all_ws (by decide)]
    by_cases h : measure [] < max_width
    · rw [if_pos h]
      exact ih (fun x hx => hws x (by simp [hx])) lines
    · rw [if_neg h]
      simp only [List.isEmpty_nil, if_true]
      exact ih (fun x hx => hws x (by simp [hx])) lines

theorem getLinesGo_ne_nil (measure : List Char → Int) (max_width : Int) :
    ∀ (words lines : List (List Char)) (cur : List Char),
      (∀ l ∈ lines, l ≠ []) →
      ∀ l ∈ getLinesGo measure max_width words lines cur, l ≠ [] := by
  intro words
  induction words with
  | nil =>
    intro lines cur hlines l hl
    rw [getLinesGo] at hl
    by_cases hc : cur.isEmpty
    · rw [if_pos hc] at hl
      exact hlines l hl
    · rw [if_neg hc] at hl
      rcases List.mem_append.mp hl with h | h
      · exact hlines l h
      · have : l = cur := by simpa using h
        subst this
        simpa using hc
  | cons w ws ih =>
    intro lines cur hlines l hl
    rw [getLinesGo] at hl
    by_cases h : measure (pyStrip (cur ++ ' ' :: w)) < max_width
    · rw [if_pos h] at hl
      exact ih lines _ hlines l hl
    · rw [if_neg h] at hl
      by_cases hc : cur.isEmpty
      · rw [if_pos hc] at hl
        exact ih lines w hlines l hl
      · rw [if_neg hc] at hl
        refine ih _ w ?_ l hl
        intro x hx
        rcases List.mem_append.mp hx with h1 | h1
        · exact hlines x h1
        · have : x = cur := by simpa using h1
          subst this
          simpa using hc

/-! ## The claims -/

/-- C1: for every input string, every measure function and every
`max_width > 0`, concatenating the lines returned by `get_lines` with
single spaces reconstructs exactly the whitespace-delimited token sequence
of the input (splitting on whitespace runs): no token is dropped, split,
duplicated or reordered. -/
theorem claim1_lines_reconstruct_tokens (measure : List Char → Int)
    (text : List Char) (max_width : Int) (hmw : 0 < max_width) :
    wsTokens (joinSp (get_lines measure text max_width)) = wsTokens text :=
  get_lines_wsTokens measure text max_width

theorem claim1_witness :
    (0 : Int) < 45 ∧
      wsTokens (joinSp (get_lines measureLen10
          [' ', ' ', 'h', 'i', '\t', 'y', 'o', ' '] 45)) =
        wsTokens [' ', ' ', 'h', 'i', '\t', 'y', 'o', ' '] :=
  ⟨by decide,
    claim1_lines_reconstruct_tokens measureLen10 _ 45 (by decide)⟩

/-- C6: for every text containing at least one non-whitespace token, every
measure function and every `max_width > 0`, `get_lines` returns a
non-empty sequence of lines. -/
theorem claim6_nonempty (measure : List Char → Int) (text : List Char)
    (max_width : Int) (hmw : 0 < max_width) (htok : wsTokens text ≠ []) :
    get_lines measure text max_width ≠ [] := by
  intro hnil
  have h := get_lines_wsTokens measure text max_width
  rw [hnil] at h
  rw [show joinSp ([] : List (List Char)) = [] from rfl, wsTokens_nil] at h
  exact htok h.symm

theorem claim6_witness :
    ((0 : Int) < 45 ∧ wsTokens ['h', 'i'] ≠ []) ∧
      get_lines measureLen10 ['h', 'i'] 45 ≠ [] :=
  ⟨⟨by decide, by decide⟩,
    claim6_nonempty measureLen10 ['h', 'i'] 45 (by decide) (by decide)⟩

/-- C8: `text_y_start_for_lines` anchors the first line at
`base + (container - lineCount*lineHeight)/2`, without the `+ lineHeight/2`
center-anchor correction the spec's `centerBlock` formula prescribes: at
`lineCount = 3`, `lineHeight = 50`, `container = 450` (base 0) the code
yields `150` while the spec's `centerBlock` yields `175`, so each line is
drawn `lineHeight/2` above the centered position. -/
theorem claim8_center_formula :
    text_y_start_for_lines 0 450 3 50 = 150 ∧
      centerBlock 3 50 450 = 175 ∧
      text_y_start_for_lines 0 450 3 50 + 50 / 2 = centerBlock 3 50 450 := by
  refine ⟨?_, ?_, ?_⟩ <;> norm_num [text_y_start_for_lines, centerBlock]

/-- C5 counterexample: the tab-only text `"\t"` with `max_width = 0` (any
measure with `measure("") ≥ max_width` behaves the same) makes `get_lines`
return the non-empty sequence `["\t"]`, so whitespace-only input does not
always yield an empty sequence. -/
theorem claim5_counterexample :
    (∀ c ∈ ['\t'], isPyWs c = true) ∧
      get_lines measureLen10 ['\t'] 0 = [['\t']] := by
  constructor
  · decide
  · decide

/-- C5 as amended: for every text that is empty or consists only of
whitespace, `get_lines` returns an empty sequence for every measure and
`max_width` with `measure("") < max_width`, and unconditionally in the
measure and `max_width` when the whitespace is only spaces (the
counterexample shows some restriction is needed once the whitespace
contains a non-space character). -/
theorem claim5_ws_only_empty (measure : List Char → Int) (text : List Char)
    (max_width : Int) (hws : ∀ c ∈ text, isPyWs c = true)
    (h : measure [] < max_width ∨ ∀ c ∈ text, c = ' ') :
    get_lines measure text max_width = [] := by
  rcases h with hlt | hsp
  · rw [get_lines]
    exact getLinesGo_all_ws measure max_width hlt _
      (fun w hw c hc => hws c (splitP_mem_chars w hw c hc).1) []
  · rw [get_lines]
    refine getLinesGo_empty_words measure max_width _ ?_ []
    intro w hw
    cases w with
    | nil => rfl
    | cons c cs =>
      have h2 := splitP_mem_chars (c :: cs) hw c (by simp)
      have hce := hsp c h2.1
      subst hce
      simp at h2

theorem claim5_witness :
    ((∀ c ∈ [' ', ' '], isPyWs c = true) ∧
      (measureLen10 [] < 0 ∨ ∀ c ∈ [' ', ' '], c = ' ')) ∧
      get_lines measureLen10 [' ', ' '] 0 = [] :=
  ⟨⟨by decide, by decide⟩,
    claim5_ws_only_empty measureLen10 _ 0 (by decide) (by decide)⟩

/-- C9 counterexample: with `measure` ten units per character and
`max_width = 5`, the text `"ab\t cd"` produces the line `"ab\t"`, which is
not equal to its stripped form, so lines are not always
leading/trailing-whitespace free. -/
theorem claim9_counterexample :
    ['a', 'b', '\t'] ∈
        get_lines measureLen10 ['a', 'b', '\t', ' ', 'c', 'd'] 5 ∧
      pyStrip ['a', 'b', '\t'] ≠ ['a', 'b', '\t'] := by
  constructor
  · decide
  · decide

/-- C9 as amended: every line returned by `get_lines` is a non-empty
string, for every text, measure and `max_width`; and when the text
contains no whitespace other than the space character every line also
equals its own stripped form. -/
theorem claim9_lines_stripped (measure : List Char → Int) (text : List Char)
    (max_width : Int) :
    (∀ l ∈ get_lines measure text max_width, l ≠ []) ∧
      ((∀ c ∈ text, isPyWs c = true → c = ' ') →
        ∀ l ∈ get_lines measure text max_width, pyStrip l = l) := by
  constructor
  · rw [get_lines]
    exact getLinesGo_ne_nil measure max_width _ [] []
      (fun l hl => absurd hl (List.not_mem_nil l))
  · intro hsp
    rw [get_lines]
    intro l hl
    exact (getLinesGo_clean measure max_width _ [] []
      (words_no_ws_of_space_only hsp)
      (fun x hx => absurd hx (List.not_mem_nil x)) clean_nil l hl).2

theorem claim9_witness :
    ((∀ c ∈ ['a', ' ', ' ', 'b'], isPyWs c = true → c = ' ') ∧
      ['a', 'b', '\t'] ≠ [] ∧ pyStrip ['a'] = ['a']) :=
  ⟨by decide,
    (claim9_lines_stripped measureLen10 ['a', 'b', '\t', ' ', 'c', 'd'] 5).1
      ['a', 'b', '\t'] (by decide),
    (claim9_lines_stripped measureLen10 ['a', ' ', ' ', 'b'] 15).2
      (by decide) ['a'] (by decide)⟩

/-- C2 counterexample: on the text `"a\tb"` (whitespace-run tokens `"a"`,
`"b"`) with a ten-units-per-character measure and a wide budget,
`get_lines` returns `["a\tb"]` while the §4.1 greedy loop over the
whitespace-run tokens returns `["a b"]`: the code iterates over
`text.split(' ')` and strips candidates, not over whitespace-run tokens. -/
theorem claim2_counterexample :
    get_lines measureLen10 ['a', '\t', 'b'] 1000 ≠
      wrapTextSpec measureLen10 (wsTokens ['a', '\t', 'b']) 1000 := by
  decide

/-- C2 as amended: on a text in single-space-normalized form (the
single-space join of non-empty, whitespace-free tokens) `get_lines`
coincides with the §4.1 greedy line-fill run over the whitespace-run token
sequence, for every measure and every `max_width`. -/
theorem claim2_greedy_equiv_normalized (measure : List Char → Int)
    (max_width : Int) (ts : List (List Char))
    (hts : ∀ w ∈ ts, w ≠ [] ∧ ∀ c ∈ w, isPyWs c = false) :
    get_lines measure (joinSp ts) max_width =
      wrapTextSpec measure (wsTokens (joinSp ts)) max_width := by
  have htoks : wsTokens (joinSp ts) = ts := by
    rw [wsTokens_joinSp, catTokens_of_clean_tokens hts]
  rw [htoks, get_lines, wrapTextSpec]
  cases ts with
  | nil =>
    rw [show joinSp ([] : List (List Char)) = [] from rfl,
      show splitP (fun c => c == ' ') ([] : List Char) = [[]] from rfl,
      getLinesGo_single_empty_word]
    rfl
  | cons t ts2 =>
    rw [splitP_joinSp (by decide) (by simp) (by
      intro w hw c hc
      have := (hts w hw).2 c hc
      by_contra hsp2
      have hsp3 : (c == ' ') = true := by simpa using hsp2
      have : c = ' ' := by simpa using hsp3
      subst this
      simp [isPyWs] at *)]
    exact getLinesGo_eq_spec measure max_width _ hts [] [] clean_nil

theorem claim2_witness :
    (∀ w ∈ [['h', 'i'], ['y', 'o']], w ≠ [] ∧ ∀ c ∈ w, isPyWs c = false) ∧
      get_lines measureLen10 (joinSp [['h', 'i'], ['y', 'o']]) 30 =
        wrapTextSpec measureLen10
          (wsTokens (joinSp [['h', 'i'], ['y', 'o']])) 30 :=
  ⟨by decide,
    claim2_greedy_equiv_normalized measureLen10 30 [['h', 'i'], ['y', 'o']]
      (by decide)⟩

/-- C3 counterexample: with the (monotonic) ten-units-per-character measure
and `max_width = 5 > 0`, the text `"a\tb"` yields the single line `"a\tb"`
of width `30 ≥ 5` which consists of two whitespace-run tokens, so the
claimed exception (a single token of overflowing width) does not cover
it. -/
theorem claim3_counterexample :
    MonotoneMeasure measureLen10 ∧ (0 : Int) < 5 ∧
      ¬ (∀ l ∈ get_lines measureLen10 ['a', '\t', 'b'] 5,
          measureLen10 l < 5 ∨
            ∃ t, wsTokens l = [t] ∧ 5 ≤ measureLen10 t) := by
  refine ⟨measureLen10_mono2.1, by decide, ?_⟩
  intro h
  rcases h ['a', '\t', 'b'] (by decide) with h1 | ⟨t, ht, hge⟩
  · revert h1
    decide
  · have hlen : (wsTokens ['a', '\t', 'b']).length = 1 := by rw [ht]; rfl
    revert hlen
    decide

/-- C3 as amended: for every text, every monotonic measure and every
`max_width > 0`, every returned line has measured width `< max_width`
except lines that are a single space-delimited token (the line equals that
token) whose width alone reaches or exceeds `max_width`. -/
theorem claim3_line_widths (measure : List Char → Int) (text : List Char)
    (max_width : Int) (hmono : MonotoneMeasure measure)
    (hmw : 0 < max_width) :
    ∀ l ∈ get_lines measure text max_width,
      measure l < max_width ∨
        (spaceTokens l = [l] ∧ max_width ≤ measure l) := by
  intro l hl
  rw [get_lines] at hl
  have hP := getLinesGo_width measure max_width _ [] []
    (fun w hw c hc => (splitP_mem_chars w hw c hc).2)
    (fun x hx => absurd hx (List.not_mem_nil x)) (Or.inl rfl) l hl
  by_cases hlt : measure l < max_width
  · exact Or.inl hlt
  · rcases hP with h1 | h1
    · exact absurd h1 hlt
    · exact Or.inr ⟨h1, by omega⟩

theorem claim3_witness :
    (MonotoneMeasure measureLen10 ∧ (0 : Int) < 15) ∧
      (measureLen10 ['a'] < 15 ∨
        (spaceTokens ['a'] = [['a']] ∧ 15 ≤ measureLen10 ['a'])) :=
  ⟨⟨measureLen10_mono2.1, by decide⟩,
    claim3_line_widths measureLen10 ['a', ' ', 'b'] 15 measureLen10_mono2.1
      (by decide) ['a'] (by decide)⟩

/-- C4 counterexample: `measureBigT` is monotonic in the spec's sense
(appending a token to a line never decreases measured width), the text
`"a t"` contains the token `"t"` whose width alone is `101 > 50`, yet
`get_lines` accepts the candidate `"a t"` (width `3 < 50`) and returns
`["a t"]`: the overflowing token shares its line instead of standing
alone. -/
theorem claim4_counterexample :
    MonotoneMeasure measureBigT ∧
      ['t'] ∈ wsTokens ['a', ' ', 't'] ∧
      (50 : Int) < measureBigT ['t'] ∧
      ['t'] ∉ get_lines measureBigT ['a', ' ', 't'] 50 := by
  refine ⟨measureBigT_mono, by decide, by decide, by decide⟩

/-- C4 as amended: for a text whose whitespace is only spaces and a measure
that is two-sidedly monotonic (the candidate is at least as wide as the
line and at least as wide as the appended token), every space-delimited
token whose width alone exceeds `max_width` appears in the output as a line
of its own, unmodified. -/
theorem claim4_overflow_own_line (measure : List Char → Int)
    (text : List Char) (max_width : Int) (hm : MonotoneMeasure2 measure)
    (hsp : ∀ c ∈ text, isPyWs c = true → c = ' ') (w : List Char)
    (hw : w ∈ spaceTokens text) (hbig : max_width < measure w) :
    w ∈ get_lines measure text max_width := by
  rw [get_lines]
  have hmem : w ∈ splitP (fun c => c == ' ') text :=
    List.mem_of_mem_filter hw
  have hwne : w ≠ [] := by
    intro h
    subst h
    have := List.of_mem_filter hw
    simp at this
  exact getLinesGo_overflow measure max_width hm w hwne hbig _ [] []
    (words_no_ws_of_space_only hsp) clean_nil hmem

theorem claim4_witness :
    (MonotoneMeasure2 measureLen10 ∧
      (∀ c ∈ ['a', 'a', 'a', 'a', 'a', 'a', ' ', 'b'],
        isPyWs c = true → c = ' ') ∧
      ['a', 'a', 'a', 'a', 'a', 'a'] ∈
        spaceTokens ['a', 'a', 'a', 'a', 'a', 'a', ' ', 'b'] ∧
      (50 : Int) < measureLen10 ['a', 'a', 'a', 'a', 'a', 'a']) ∧
      ['a', 'a', 'a', 'a', 'a', 'a'] ∈
        get_lines measureLen10 ['a', 'a', 'a', 'a', 'a', 'a', ' ', 'b'] 50 :=
  ⟨⟨measureLen10_mono2, by decide, by decide, by decide⟩,
    claim4_overflow_own_line measureLen10 _ 50 measureLen10_mono2
      (by decide) _ (by decide) (by decide)⟩

/-- C7 counterexample: the number of measurement calls `get_lines` performs
is one per chunk of `text.split(' ')`, which is the number of space
characters plus one; since runs of spaces collapse into single
whitespace-run tokens, no affine bound in the token count can cover all
inputs (a text `"a"` followed by `2C + 2` spaces needs `2C + 3`
measurements for a single token). -/
theorem claim7_counterexample :
    ¬ ∃ C : ℕ, ∀ (measure : List Char → Int) (text : List Char)
        (max_width : Int),
        (get_lines_measured measure text max_width).2 ≤
          C * (wsTokens text).length + C := by
  rintro ⟨C, h⟩
  have h2 := h (fun _ => 0) ('a' :: List.replicate (2 * C + 2) ' ') 1
  have hrep : ∀ c ∈ List.replicate (2 * C + 2) ' ', (c == ' ') = true := by
    intro c hc
    simp [List.eq_of_mem_replicate hc]
  have hrepws : ∀ c ∈ List.replicate (2 * C + 2) ' ', isPyWs c = true := by
    intro c hc
    simp [List.eq_of_mem_replicate hc, isPyWs]
  have hsplit : splitP (fun c => c == ' ')
      ('a' :: List.replicate (2 * C + 2) ' ') =
      ['a'] :: List.replicate (2 * C + 2) [] := by
    rw [show ('a' :: List.replicate (2 * C + 2) ' ') =
        ['a'] ++ List.replicate (2 * C + 2) ' ' from rfl,
      splitP_append_all_sep hrep,
      splitP_no_sep (by decide : ∀ c ∈ ['a'], (c == ' ') = false)]
    simp
  have hws : wsTokens ('a' :: List.replicate (2 * C + 2) ' ') = [['a']] := by
    rw [wsTokens, show ('a' :: List.replicate (2 * C + 2) ' ') =
        ['a'] ++ List.replicate (2 * C + 2) ' ' from rfl,
      splitP_append_all_sep hrepws,
      splitP_no_sep (by decide : ∀ c ∈ ['a'], isPyWs c = false),
      List.filter_append, filter_replicate_nil]
    simp
  rw [get_lines_measured, getLinesCountGo_snd, hsplit, hws] at h2
  simp [List.length_replicate] at h2
  omega

/-- C7 as amended: `get_lines` terminates in a single pass, performing
exactly one measurement call per chunk of `text.split(' ')` — that is, the
number of space characters plus one, which is at most `text.length + 1`
(linear in the input length, but not bounded by the whitespace-run token
count). -/
theorem claim7_single_pass (measure : List Char → Int) (text : List Char)
    (max_width : Int) :
    (get_lines_measured measure text max_width).1 =
        get_lines measure text max_width ∧
      (get_lines_measured measure text max_width).2 =
        (splitP (fun c => c == ' ') text).length ∧
      (get_lines_measured measure text max_width).2 ≤ text.length + 1 := by
  refine ⟨getLinesCountGo_fst measure max_width _ [] [], ?_, ?_⟩
  · rw [get_lines_measured, getLinesCountGo_snd]
  · rw [get_lines_measured, getLinesCountGo_snd]
    exact splitP_length_le _ text

/-- C10 counterexample: with a measure that finds exactly `"a b"` narrow
(width 10) and everything else wide (width 100), and `max_width = 50`, the
text `"a  b"` wraps to `["a", "b"]` while its space-normalized form
`"a b"` wraps to `["a b"]`: the empty chunks of `text.split(' ')` trigger
an extra measurement that can emit a line early. -/
theorem claim10_counterexample :
    get_lines measureNarrowAB ['a', ' ', ' ', 'b'] 50 ≠
      get_lines measureNarrowAB
        (normalizeSpaces ['a', ' ', ' ', 'b']) 50 := by
  decide

/-- C10 as amended: for a monotonic measure and a text whose whitespace is
only spaces, `get_lines` is insensitive to redundant spaces: it returns the
same lines on the text and on its space-normalized form. -/
theorem claim10_space_insensitive (measure : List Char → Int)
    (text : List Char) (max_width : Int) (hm : MonotoneMeasure measure)
    (hsp : ∀ c ∈ text, isPyWs c = true → c = ' ') :
    get_lines measure text max_width =
      get_lines measure (normalizeSpaces text) max_width := by
  have hwords := words_no_ws_of_space_only hsp
  rw [get_lines, getLinesGo_filter_empty measure max_width hm _ hwords [] []
    clean_nil]
  rw [get_lines, normalizeSpaces]
  have hfil : (splitP (fun c => c == ' ') text).filter (fun w => !w.isEmpty)
      = spaceTokens text := rfl
  rw [hfil]
  by_cases hts : spaceTokens text = []
  · rw [hts, show joinSp ([] : List (List Char)) = [] from rfl,
      show splitP (fun c => c == ' ') ([] : List Char) = [[]] from rfl,
      getLinesGo_single_empty_word]
    rfl
  · rw [splitP_joinSp (by decide) hts (fun w hw c hc =>
      (splitP_mem_chars w (List.mem_of_mem_filter hw) c hc).2)]

theorem claim10_witness :
    (MonotoneMeasure measureLen10 ∧
      (∀ c ∈ ['a', ' ', ' ', 'b'], isPyWs c = true → c = ' ')) ∧
      get_lines measureLen10 ['a', ' ', ' ', 'b'] 50 =
        get_lines measureLen10 (normalizeSpaces ['a', ' ', ' ', 'b']) 50 :=
  ⟨⟨measureLen10_mono2.1, by decide⟩,
    claim10_space_insensitive measureLen10 ['a', ' ', ' ', 'b'] 50
      measureLen10_mono2.1 (by decide)⟩
